import Mathlib

/-!
Shallow embedding of the citations-collector core pipeline
(`citations_collector/core.py`, `discovery/utils.py`,
`classifications_storage.py`, `classifier.py`, `models/validators.py`)
together with proofs of the merge, deduplication and classification-store
properties.

Conventions: Python `Optional` fields become `Option` values, Python
truthiness (`if value:`) becomes the `truthy` predicates below, in-place
mutation of records becomes functional record update, and the mutable
citation list plus the key index built by `merge_citations` become explicit
state threaded through a fold.
-/

namespace CitationsCollector

/-- Python truthiness of an optional string: `None` and the empty string are
falsy. -/
def truthy : Option String → Bool
  | none => false
  | some s => if s = "" then false else true

/-- Python truthiness of an optional integer: `None` and `0` are falsy. -/
def truthyInt : Option Int → Bool
  | none => false
  | some y => if y = 0 then false else true

/-- Modelled from the spec: the field layout of `CitationRecord` (spec section 3
and the TSV column list of section 6, matching `persistence/tsv_io.TSV_COLUMNS`
and every field access in `core.py` and `discovery/utils.py`); the generated
pydantic class body in `models/generated.py` is not among the sources.
Enum-valued fields are modelled as the strings the code compares them to.
The `discovered_dates` mapping is modelled in its dictionary form as an
association list. -/
structure CitationRecord where
  item_id : String := ""
  item_flavor : String := ""
  item_ref_type : Option String := none
  item_ref_value : Option String := none
  item_name : Option String := none
  citation_doi : Option String := none
  citation_pmid : Option String := none
  citation_arxiv : Option String := none
  citation_url : Option String := none
  citation_title : Option String := none
  citation_authors : Option String := none
  citation_year : Option Int := none
  citation_journal : Option String := none
  citation_relationship : Option String := none
  citation_relationships : List String := []
  citation_type : Option String := none
  citation_source : Option String := none
  citation_sources : List String := []
  discovered_dates : Option (List (String × String)) := none
  discovered_date : Option String := none
  citation_status : String := "active"
  citation_merged_into : Option String := none
  citation_comment : Option String := none
  curated_by : Option String := none
  curated_date : Option String := none
  classification_method : Option String := none
  classification_model : Option String := none
  classification_confidence : Option Rat := none
  classification_reviewed : Option Bool := none
  oa_status : Option String := none
  pdf_url : Option String := none
  pdf_path : Option String := none
deriving DecidableEq

/-- The composite identity `(item_id, item_flavor, citation_doi)`. -/
abbrev MergeKey := String × String × Option String

/-- Merge key of a record, the grouping key of `deduplicate_citations` and the
index key of `merge_citations`. -/
def mergeKey (c : CitationRecord) : MergeKey :=
  (c.item_id, c.item_flavor, c.citation_doi)

/-! ## Citation classifier (`classifier.py`) -/

/-- Result shape returned by every LLM backend (`llm/base.py`,
`ClassificationResult`).  The float confidence is modelled as a rational. -/
structure ClassificationResult where
  relationship_type : String
  confidence : Rat
  reasoning : String
  context_used : List String
deriving DecidableEq

/-- Paper metadata dictionary, used only opaquely by the classifier. -/
abbrev PaperMetadata := List (String × String)

/-- An LLM backend: `backend.classify_citation(contexts, paper_metadata,
dataset_id)`.  The HTTP mechanics are an external collaborator, so the backend
is a parameter. -/
abbrev Backend := List String → PaperMetadata → String → ClassificationResult

/-- Embedding of `CitationClassifier.classify_citation`: an empty context list
short-circuits to the fixed fallback result, otherwise the backend is
consulted. -/
def classify_citation (backend : Backend) (contexts : List String)
    (paper_metadata : PaperMetadata) (dataset_id : String) : ClassificationResult :=
  if contexts = [] then
    { relationship_type := "Cites"
      confidence := 0
      reasoning := "No context available for classification"
      context_used := [] }
  else
    backend contexts paper_metadata dataset_id

/-! ## Classification result store (`classifications_storage.py`) -/

/-- One stored LLM verdict (`StoredClassification`). -/
structure StoredClassification where
  item_id : String
  item_flavor : String
  model : String
  backend : String
  relationship_type : String
  confidence : Rat
  reasoning : String
  timestamp : String
  mode : String
deriving DecidableEq

/-- Embedding of `ClassificationsStorage.add_classification` for one paper:
the per-paper `classifications.json` document is the input and output list,
and `datetime.now().isoformat()` is the explicit `timestamp` argument.
Any entry with the same `(item_id, item_flavor, model)` is removed, then the
new entry is appended. -/
def add_classification (classifications : List StoredClassification)
    (item_id item_flavor : String) (result : ClassificationResult)
    (model backend mode timestamp : String) : List StoredClassification :=
  let new_classification : StoredClassification :=
    { item_id := item_id
      item_flavor := item_flavor
      model := model
      backend := backend
      relationship_type := result.relationship_type
      confidence := result.confidence
      reasoning := result.reasoning
      timestamp := timestamp
      mode := mode }
  let remaining := classifications.filter fun c =>
    decide (¬ (c.item_id = item_id ∧ c.item_flavor = item_flavor ∧ c.model = model))
  remaining ++ [new_classification]

/-- The entry `add_classification` builds from its arguments before the
remove-then-append step. -/
def storedEntry (item_id item_flavor model backend : String) (result : ClassificationResult)
    (mode timestamp : String) : StoredClassification :=
  { item_id := item_id
    item_flavor := item_flavor
    model := model
    backend := backend
    relationship_type := result.relationship_type
    confidence := result.confidence
    reasoning := result.reasoning
    timestamp := timestamp
    mode := mode }

/-! ## Record construction validators (`models/validators.py`) -/

/-- First validator block of `populate_and_validate`: auto-populate
`citation_relationships` from the singular field, or reject an incoherent
pair (first list element differing from the singular field). -/
def validateRelationships (r : CitationRecord) : Except String CitationRecord :=
  match r.citation_relationship with
  | none => Except.ok r
  | some rel =>
    if rel ≠ "" ∧ r.citation_relationships = [] then
      Except.ok { r with citation_relationships := [rel] }
    else if r.citation_relationships ≠ [] ∧ rel ≠ "" ∧
        some rel ≠ r.citation_relationships.head? then
      Except.error "citation_relationship must match first element of citation_relationships"
    else
      Except.ok r

/-- Second validator block: auto-populate `citation_sources` from the singular
field, or reject a singular source missing from the list. -/
def validateSources (r : CitationRecord) : Except String CitationRecord :=
  match r.citation_source with
  | none => Except.ok r
  | some src =>
    if src ≠ "" ∧ r.citation_sources = [] then
      Except.ok { r with citation_sources := [src] }
    else if r.citation_sources ≠ [] ∧ src ≠ "" ∧ ¬ r.citation_sources.contains src then
      Except.error "citation_source must be present in citation_sources"
    else
      Except.ok r

/-- Third validator block: when both `citation_sources` and `discovered_dates`
are non-empty, their key sets must coincide.  The JSON-string form of
`discovered_dates` belongs to file deserialization and is outside the core;
the dictionary form is checked here exactly as in the source. -/
def validateDiscoveredDates (r : CitationRecord) : Except String CitationRecord :=
  match r.discovered_dates with
  | none => Except.ok r
  | some dates =>
    if r.citation_sources ≠ [] ∧ dates ≠ [] then
      if r.citation_sources.all fun s => (dates.map Prod.fst).contains s then
        if (dates.map Prod.fst).all fun k => r.citation_sources.contains k then
          Except.ok r
        else
          Except.error "source in discovered_dates but not in citation_sources"
      else
        Except.error "source missing in discovered_dates"
    else
      Except.ok r

/-- Embedding of `CitationRecordWithValidators.populate_and_validate`, the
model validator run at construction: the three blocks in source order, the
first raised error aborting construction. -/
def populate_and_validate (r : CitationRecord) : Except String CitationRecord :=
  (validateRelationships r).bind fun r1 =>
    (validateSources r1).bind fun r2 =>
      validateDiscoveredDates r2

/-! ## Deduplicator (`discovery/utils.py`, `deduplicate_citations`) -/

/-- One step of building the insertion-ordered grouping dictionary
`grouped[key].append(citation)`: the first group with the matching key grows,
otherwise a fresh `(key, [citation])` group is appended.  Keys occur at most
once by construction, matching the Python `dict`. -/
def addToGroups : List (MergeKey × List CitationRecord) → CitationRecord →
    List (MergeKey × List CitationRecord)
  | [], c => [(mergeKey c, [c])]
  | g :: rest, c =>
    if g.1 = mergeKey c then (g.1, g.2 ++ [c]) :: rest
    else g :: addToGroups rest c

/-- The grouping dictionary of `deduplicate_citations`, in insertion order. -/
def groupByKey (citations : List CitationRecord) : List (MergeKey × List CitationRecord) :=
  citations.foldl addToGroups []

/-- The `sources` accumulation inside `deduplicate_citations`: every distinct
truthy `citation_source` across the group, in first-seen order. -/
def collectSources (group : List CitationRecord) : List String :=
  group.foldl
    (fun sources c =>
      match c.citation_source with
      | none => sources
      | some s => if s ≠ "" ∧ ¬ sources.contains s then sources ++ [s] else sources)
    []

/-- The source-merging tail of `deduplicate_citations`: several distinct
sources are stored in `citation_sources`, exactly one is written back to
`citation_source`, and no source leaves the representative unchanged. -/
def applySources (citation : CitationRecord) (sources : List String) : CitationRecord :=
  if 1 < sources.length then { citation with citation_sources := sources }
  else
    match sources with
    | [s] => { citation with citation_source := some s }
    | _ => citation

/-- Per-group body of the output loop of `deduplicate_citations`: the first
record of the group is the representative (`citation = group[0]`; groups are
never empty by construction) and the collected sources are merged into it. -/
def dedupGroup (g : MergeKey × List CitationRecord) : Option CitationRecord :=
  match g.2 with
  | [] => none
  | c :: _ => some (applySources c (collectSources g.2))

/-- Embedding of `deduplicate_citations`: group by the merge key, keep the
first record of each group as representative, and consolidate the observed
sources into it. -/
def deduplicate_citations (citations : List CitationRecord) : List CitationRecord :=
  (groupByKey citations).filterMap dedupGroup

/-! ## Merger (`core.py`, `CitationCollector.merge_citations`) -/

/-- Position of the last record with the given merge key, which is the record
the Python dictionary comprehension
`{(c.item_id, c.item_flavor, c.citation_doi): c for c in self.citations}`
retains for that key (later insertions overwrite earlier ones). -/
def lastKeyIdx : List CitationRecord → MergeKey → Option Nat
  | [], _ => none
  | c :: rest, k =>
    match lastKeyIdx rest k with
    | some j => some (j + 1)
    | none => if mergeKey c = k then some 0 else none

/-- Apply a function to the record at one position of the citation list; this
is how mutating the record object shared between the list and the index shows
up in a pure embedding. -/
def modifyAt : List CitationRecord → Nat → (CitationRecord → CitationRecord) → List CitationRecord
  | [], _, _ => []
  | c :: rest, 0, f => f c :: rest
  | c :: rest, i + 1, f => c :: modifyAt rest i f

/-- The metadata-refresh body of `merge_citations`: only an existing record
with `citation_status == "active"` and a falsy `citation_comment` is updated,
and each of title, authors, year and journal is overwritten only when the
incoming value is truthy. -/
def refreshMetadata (existing new_citation : CitationRecord) : CitationRecord :=
  if existing.citation_status = "active" ∧ truthy existing.citation_comment = false then
    { existing with
        citation_title :=
          if truthy new_citation.citation_title then new_citation.citation_title
          else existing.citation_title
        citation_authors :=
          if truthy new_citation.citation_authors then new_citation.citation_authors
          else existing.citation_authors
        citation_year :=
          if truthyInt new_citation.citation_year then new_citation.citation_year
          else existing.citation_year
        citation_journal :=
          if truthy new_citation.citation_journal then new_citation.citation_journal
          else existing.citation_journal }
  else existing

/-- State of the `merge_citations` loop: the citation list and the key index.
The Python index maps a key to a shared mutable record object; here it maps
the key to the record position in the list. -/
structure MergeState where
  citations : List CitationRecord
  index : MergeKey → Option Nat

/-- One iteration of the `merge_citations` loop over `new_citations`: a key
already in the index refreshes the indexed record in place, a fresh key
appends the incoming record and registers it in the index. -/
def mergeLoopStep (st : MergeState) (new_citation : CitationRecord) : MergeState :=
  match st.index (mergeKey new_citation) with
  | some i =>
    { st with citations := modifyAt st.citations i fun existing => refreshMetadata existing new_citation }
  | none =>
    { citations := st.citations ++ [new_citation]
      index := fun k =>
        if k = mergeKey new_citation then some st.citations.length else st.index k }

/-- Embedding of `CitationCollector.merge_citations`: build the index of the
existing citations, fold the loop over the incoming batch, return the updated
citation list. -/
def merge_citations (citations new_citations : List CitationRecord) : List CitationRecord :=
  (new_citations.foldl mergeLoopStep ⟨citations, lastKeyIdx citations⟩).citations

/-- Index-free form of one merge iteration, used throughout the proofs; the
`merge_citations_eq_mergeAux` lemma shows the threaded index always agrees
with `lastKeyIdx` of the current list. -/
def mergeStep (citations : List CitationRecord) (new_citation : CitationRecord) :
    List CitationRecord :=
  match lastKeyIdx citations (mergeKey new_citation) with
  | some i => modifyAt citations i fun existing => refreshMetadata existing new_citation
  | none => citations ++ [new_citation]

/-- Index-free form of `merge_citations`. -/
def mergeAux (citations new_citations : List CitationRecord) : List CitationRecord :=
  new_citations.foldl mergeStep citations

/-- Repeated metadata refresh of one record by a sequence of incoming
records, in order; this is what a record at a fixed position undergoes during
a merge run. -/
def refreshChain (e : CitationRecord) (incoming : List CitationRecord) : CitationRecord :=
  incoming.foldl refreshMetadata e

/-- The guarded field assignment of the refresh body: keep `v` unless the
incoming value `w` is truthy. -/
def pickVal {α : Type} (t : α → Bool) (v w : α) : α :=
  if t w then w else v

/-- Folded guarded assignment over a sequence of incoming field values. -/
def pickFold {α : Type} (t : α → Bool) (v : α) (ws : List α) : α :=
  ws.foldl (pickVal t) v

/-- A citation list is key-unique when no two records share the merge key. -/
def distinctKeys (citations : List CitationRecord) : Prop :=
  (citations.map mergeKey).Nodup

instance (citations : List CitationRecord) : Decidable (distinctKeys citations) :=
  inferInstanceAs (Decidable ((citations.map mergeKey).Nodup))

/-! ## Collection orchestrator (`core.py`, `CitationCollector.discover_all`) -/

/-- Modelled from the spec: `IdentifierRef` (spec section 3), matching the
`ref.ref_type` / `ref.ref_value` accesses in `core.py`. -/
structure ItemRef where
  ref_type : String
  ref_value : String

/-- Modelled from the spec: an item version with its identifier refs
(spec section 3), matching the `flavor.flavor_id` / `flavor.refs` accesses in
`core.py`. -/
structure ItemFlavor where
  flavor_id : String
  refs : List ItemRef

/-- Modelled from the spec: a tracked item (spec section 3), matching the
`item.item_id` / `item.name` / `item.flavors` accesses in `core.py`. -/
structure Item where
  item_id : String
  name : Option String
  flavors : List ItemFlavor

/-- Modelled from the spec: the root aggregate with its item list and
incremental watermark (spec section 3).  The timestamp is an abstract `Nat`
instant. -/
structure Collection where
  items : List Item
  last_updated : Option Nat

/-- A source discoverer: `discoverer.discover(ref, since)`.  The HTTP adapters
are external collaborators; a raising call is an `Except.error`, which
`discover_all` catches and logs. -/
abbrev Discoverer := ItemRef → Option Nat → Except String (List CitationRecord)

/-- The in-loop stamping of discovered records with the owning item, flavor
and ref context (`core.py` lines 175-180). -/
def stampCitation (item : Item) (flavor : ItemFlavor) (ref : ItemRef)
    (c : CitationRecord) : CitationRecord :=
  { c with
      item_id := item.item_id
      item_flavor := flavor.flavor_id
      item_ref_type := some ref.ref_type
      item_ref_value := some ref.ref_value
      item_name := item.name }

/-- The per-ref discoverer fan-out of `discover_all`: every enabled discoverer
in sequence, a failing discoverer contributing no records. -/
def discoverForRef (discoverers : List (String × Discoverer)) (since : Option Nat)
    (item : Item) (flavor : ItemFlavor) (ref : ItemRef) : List CitationRecord :=
  discoverers.foldl
    (fun acc d =>
      match d.2 ref since with
      | Except.ok citations => acc ++ citations.map (stampCitation item flavor ref)
      | Except.error _ => acc)
    []

/-- State owned by `CitationCollector`: the collection and the citation
list. -/
structure CollectorState where
  collection : Collection
  citations : List CitationRecord

/-- Embedding of `CitationCollector.discover_all`.  The resolved discoverer
set is a parameter (the adapters are HTTP clients), `datetime.now()` is the
explicit `now` argument.  As in the source, `since` is the watermark only for
an incremental run, an empty item list returns before anything else happens,
and otherwise the accumulated batch is deduplicated, merged, and the watermark
advanced to `now`. -/
def discover_all (st : CollectorState) (discoverers : List (String × Discoverer))
    (incremental : Bool) (now : Nat) : CollectorState :=
  let since : Option Nat :=
    if incremental then st.collection.last_updated else none
  if st.collection.items.isEmpty then st
  else
    let all_citations :=
      st.collection.items.foldl
        (fun acc item =>
          item.flavors.foldl
            (fun acc flavor =>
              flavor.refs.foldl
                (fun acc ref => acc ++ discoverForRef discoverers since item flavor ref)
                acc)
            acc)
        []
    let unique_citations := deduplicate_citations all_citations
    let citations := merge_citations st.citations unique_citations
    { collection := { st.collection with last_updated := some now }
      citations := citations }

/-! ## Theorems -/

/-- C9: for every backend, paper metadata and dataset id, classifying with an
empty context list returns the fixed fallback result — relationship type
`Cites`, confidence `0`, a non-empty reasoning string explaining the absence
of context — and, being a total function, raises nothing. -/
theorem classify_citation_empty_contexts_fallback (backend : Backend)
    (paper_metadata : PaperMetadata) (dataset_id : String) :
    classify_citation backend [] paper_metadata dataset_id =
      { relationship_type := "Cites"
        confidence := 0
        reasoning := "No context available for classification"
        context_used := [] } ∧
    (classify_citation backend [] paper_metadata dataset_id).reasoning ≠ "" := by
  refine ⟨rfl, ?_⟩
  show "No context available for classification" ≠ ""
  decide

/-- C8: constructing a `CitationRecord` with `citation_relationship = "Cites"`
and `citation_relationships = ["Uses"]` fails validation, while constructing
with `citation_relationship = "Cites"` and no `citation_relationships`
succeeds and auto-populates the list to `["Cites"]`. -/
theorem citation_record_relationship_coherence :
    (∃ msg, populate_and_validate
        { citation_relationship := some "Cites", citation_relationships := ["Uses"] } =
      Except.error msg) ∧
    populate_and_validate { citation_relationship := some "Cites" } =
      Except.ok { citation_relationship := some "Cites", citation_relationships := ["Cites"] } := by
  exact ⟨⟨_, rfl⟩, rfl⟩

/-- Unfolded form of `add_classification`. -/
theorem add_classification_eq (classifications : List StoredClassification)
    (item_id item_flavor : String) (result : ClassificationResult)
    (model backend mode timestamp : String) :
    add_classification classifications item_id item_flavor result model backend mode timestamp =
      (classifications.filter fun c =>
          decide (¬ (c.item_id = item_id ∧ c.item_flavor = item_flavor ∧ c.model = model))) ++
        [storedEntry item_id item_flavor model backend result mode timestamp] := rfl

/-- C4: adding a classification twice for the same
`(item_id, item_flavor, model)` key leaves exactly one stored entry for that
key, carrying the second call values, and a subsequent add for a different
model with the same `(item_id, item_flavor)` leaves the two entries
coexisting. -/
theorem add_classification_replace_semantics
    (stored : List StoredClassification) (i f m m' b mode : String)
    (r1 r2 r3 : ClassificationResult) (t1 t2 t3 : String)
    (hm : m ≠ m')
    (hif : stored.filter (fun c => decide (c.item_id = i ∧ c.item_flavor = f)) = []) :
    (add_classification (add_classification stored i f r1 m b mode t1) i f r2 m b mode t2).filter
        (fun c => decide (c.item_id = i ∧ c.item_flavor = f ∧ c.model = m)) =
      [storedEntry i f m b r2 mode t2] ∧
    (add_classification
        (add_classification (add_classification stored i f r1 m b mode t1) i f r2 m b mode t2)
        i f r3 m' b mode t3).filter
        (fun c => decide (c.item_id = i ∧ c.item_flavor = f)) =
      [storedEntry i f m b r2 mode t2, storedEntry i f m' b r3 mode t3] := by
  have hstored : ∀ c ∈ stored, ¬ (c.item_id = i ∧ c.item_flavor = f) := by
    intro c hc
    have := List.filter_eq_nil_iff.mp hif c hc
    simpa using this
  have hP : ∀ m'' : String,
      (stored.filter fun c =>
        decide (¬ (c.item_id = i ∧ c.item_flavor = f ∧ c.model = m''))) = stored := by
    intro m''
    apply List.filter_eq_self.mpr
    intro c hc
    simp only [decide_eq_true_eq]
    intro hcontra
    exact hstored c hc ⟨hcontra.1, hcontra.2.1⟩
  have hnil : ∀ q : StoredClassification → Bool,
      (∀ c, q c = true → c.item_id = i ∧ c.item_flavor = f) → stored.filter q = [] := by
    intro q hq
    apply List.filter_eq_nil_iff.mpr
    intro c hc hqc
    exact hstored c hc (hq c hqc)
  have h2 : add_classification stored i f r1 m b mode t1 =
      stored ++ [storedEntry i f m b r1 mode t1] := by
    rw [add_classification_eq, hP m]
  have h3 : add_classification (stored ++ [storedEntry i f m b r1 mode t1]) i f r2 m b mode t2 =
      stored ++ [storedEntry i f m b r2 mode t2] := by
    rw [add_classification_eq, List.filter_append, hP m]
    simp [storedEntry]
  have h4 : add_classification (stored ++ [storedEntry i f m b r2 mode t2]) i f r3 m' b mode t3 =
      stored ++ [storedEntry i f m b r2 mode t2, storedEntry i f m' b r3 mode t3] := by
    rw [add_classification_eq, List.filter_append, hP m']
    simp [storedEntry, hm]
  constructor
  · rw [h2, h3, List.filter_append]
    rw [hnil _ (by intro c hc; simp only [decide_eq_true_eq] at hc; exact ⟨hc.1, hc.2.1⟩)]
    simp [storedEntry]
  · rw [h2, h3, h4, List.filter_append]
    rw [hnil _ (by intro c hc; simp only [decide_eq_true_eq] at hc; exact hc)]
    simp [storedEntry]

/-- C4 witness: the replace-then-coexist behaviour at concrete inputs. -/
theorem add_classification_replace_semantics_witness :
    (add_classification (add_classification [] "it" "fl" ⟨"Cites", 1, "a", []⟩ "A" "b" "short_context" "t1")
        "it" "fl" ⟨"Uses", 0, "b", []⟩ "A" "b" "short_context" "t2").filter
        (fun c => decide (c.item_id = "it" ∧ c.item_flavor = "fl" ∧ c.model = "A")) =
      [storedEntry "it" "fl" "A" "b" ⟨"Uses", 0, "b", []⟩ "short_context" "t2"] ∧
    (add_classification
        (add_classification
          (add_classification [] "it" "fl" ⟨"Cites", 1, "a", []⟩ "A" "b" "short_context" "t1")
          "it" "fl" ⟨"Uses", 0, "b", []⟩ "A" "b" "short_context" "t2")
        "it" "fl" ⟨"Describes", 1, "c", []⟩ "B" "b" "short_context" "t3").filter
        (fun c => decide (c.item_id = "it" ∧ c.item_flavor = "fl")) =
      [storedEntry "it" "fl" "A" "b" ⟨"Uses", 0, "b", []⟩ "short_context" "t2",
       storedEntry "it" "fl" "B" "b" ⟨"Describes", 1, "c", []⟩ "short_context" "t3"] :=
  add_classification_replace_semantics [] "it" "fl" "A" "B" "b" "short_context"
    ⟨"Cites", 1, "a", []⟩ ⟨"Uses", 0, "b", []⟩ ⟨"Describes", 1, "c", []⟩ "t1" "t2" "t3"
    (by decide) rfl

/-- C5 counterexample: a run over a collection with an empty item list returns
before the watermark update, so `last_updated` is not advanced to the current
time. -/
theorem discover_all_empty_items_keeps_watermark :
    (discover_all ⟨⟨[], none⟩, []⟩ [] true 1).collection.last_updated ≠ some 1 := by
  intro h
  exact Option.noConfusion h

/-- C5 amended: every `discover_all` run over a collection whose item list is
non-empty advances `last_updated` to the current time at the end of the run,
regardless of whether any citations were found; a run over an empty item list
returns early and leaves the watermark unchanged. -/
theorem discover_all_advances_watermark (st : CollectorState)
    (discoverers : List (String × Discoverer)) (incremental : Bool) (now : Nat)
    (h : st.collection.items ≠ []) :
    (discover_all st discoverers incremental now).collection.last_updated = some now := by
  unfold discover_all
  simp [List.isEmpty_iff, h]

/-- C5 amended witness: a singleton-item collection with no discoverers still
gets its watermark advanced. -/
theorem discover_all_advances_watermark_witness :
    ((⟨⟨[⟨"it", none, []⟩], none⟩, []⟩ : CollectorState).collection.items ≠ []) ∧
    (discover_all ⟨⟨[⟨"it", none, []⟩], none⟩, []⟩ [] true 7).collection.last_updated = some 7 :=
  ⟨by simp, discover_all_advances_watermark ⟨⟨[⟨"it", none, []⟩], none⟩, []⟩ [] true 7 (by simp)⟩

/-! ### Deduplicator lemmas -/

/-- Source consolidation never touches the merge-key fields. -/
theorem mergeKey_applySources (c : CitationRecord) (sources : List String) :
    mergeKey (applySources c sources) = mergeKey c := by
  unfold applySources
  split
  · rfl
  · split <;> rfl

/-- Every member of a group carries the group key, preserved by insertion. -/
theorem addToGroups_mem_key (gs : List (MergeKey × List CitationRecord)) (c : CitationRecord)
    (h : ∀ g ∈ gs, ∀ c' ∈ g.2, mergeKey c' = g.1) :
    ∀ g ∈ addToGroups gs c, ∀ c' ∈ g.2, mergeKey c' = g.1 := by
  induction gs with
  | nil =>
    intro g hg c' hc'
    simp only [addToGroups, List.mem_singleton] at hg
    subst hg
    simp only [List.mem_singleton] at hc'
    subst hc'
    rfl
  | cons g0 rest ih =>
    intro g hg c' hc'
    simp only [addToGroups] at hg
    by_cases hk : g0.1 = mergeKey c
    · rw [if_pos hk] at hg
      rcases List.mem_cons.mp hg with hg | hg
      · subst hg
        rcases List.mem_append.mp hc' with hc2 | hc2
        · exact h g0 (List.mem_cons_self _ _) c' hc2
        · simp only [List.mem_singleton] at hc2
          subst hc2
          exact hk.symm
      · exact h g (List.mem_cons_of_mem _ hg) c' hc'
    · rw [if_neg hk] at hg
      rcases List.mem_cons.mp hg with hg | hg
      · subst hg
        exact h _ (List.mem_cons_self _ _) c' hc'
      · exact ih (fun g' hg' => h g' (List.mem_cons_of_mem _ hg')) g hg c' hc'

/-- Groups are never empty, preserved by insertion. -/
theorem addToGroups_nonempty (gs : List (MergeKey × List CitationRecord)) (c : CitationRecord)
    (h : ∀ g ∈ gs, g.2 ≠ []) :
    ∀ g ∈ addToGroups gs c, g.2 ≠ [] := by
  induction gs with
  | nil =>
    intro g hg
    simp only [addToGroups, List.mem_singleton] at hg
    subst hg
    simp
  | cons g0 rest ih =>
    intro g hg
    simp only [addToGroups] at hg
    by_cases hk : g0.1 = mergeKey c
    · rw [if_pos hk] at hg
      rcases List.mem_cons.mp hg with hg | hg
      · subst hg
        simp
      · exact h g (List.mem_cons_of_mem _ hg)
    · rw [if_neg hk] at hg
      rcases List.mem_cons.mp hg with hg | hg
      · subst hg
        exact h _ (List.mem_cons_self _ _)
      · exact ih (fun g' hg' => h g' (List.mem_cons_of_mem _ hg')) g hg

/-- Inserting a record whose key is absent appends a fresh singleton group. -/
theorem addToGroups_of_not_mem (gs : List (MergeKey × List CitationRecord)) (c : CitationRecord)
    (h : mergeKey c ∉ gs.map Prod.fst) :
    addToGroups gs c = gs ++ [(mergeKey c, [c])] := by
  induction gs with
  | nil => rfl
  | cons g0 rest ih =>
    simp only [List.map_cons, List.mem_cons] at h
    push_neg at h
    simp only [addToGroups, if_neg (Ne.symm h.1)]
    rw [ih h.2]
    rfl

/-- Inserting a record whose key is present leaves the key list unchanged. -/
theorem addToGroups_keys_of_mem (gs : List (MergeKey × List CitationRecord)) (c : CitationRecord)
    (h : mergeKey c ∈ gs.map Prod.fst) :
    (addToGroups gs c).map Prod.fst = gs.map Prod.fst := by
  induction gs with
  | nil => simp at h
  | cons g0 rest ih =>
    by_cases hk : g0.1 = mergeKey c
    · simp only [addToGroups, if_pos hk]
      rfl
    · simp only [List.map_cons, List.mem_cons] at h
      rcases h with h | h
      · exact absurd h.symm hk
      · simp only [addToGroups, if_neg hk, List.map_cons, ih h]

/-- Group keys stay duplicate-free under insertion. -/
theorem addToGroups_nodup (gs : List (MergeKey × List CitationRecord)) (c : CitationRecord)
    (h : (gs.map Prod.fst).Nodup) :
    ((addToGroups gs c).map Prod.fst).Nodup := by
  by_cases hm : mergeKey c ∈ gs.map Prod.fst
  · rw [addToGroups_keys_of_mem gs c hm]
    exact h
  · rw [addToGroups_of_not_mem gs c hm]
    simp only [List.map_append, List.map_cons, List.map_nil]
    rw [List.nodup_append]
    refine ⟨h, List.nodup_singleton _, ?_⟩
    intro k hk hk'
    simp only [List.mem_singleton] at hk'
    subst hk'
    exact hm hk

/-- The grouping dictionary built by `deduplicate_citations`: every group
member carries the group key. -/
theorem groupByKey_mem_key (citations : List CitationRecord) :
    ∀ g ∈ groupByKey citations, ∀ c' ∈ g.2, mergeKey c' = g.1 := by
  suffices aux : ∀ (X : List CitationRecord) (gs : List (MergeKey × List CitationRecord)),
      (∀ g ∈ gs, ∀ c' ∈ g.2, mergeKey c' = g.1) →
      ∀ g ∈ X.foldl addToGroups gs, ∀ c' ∈ g.2, mergeKey c' = g.1 by
    exact aux citations [] (by simp)
  intro X
  induction X with
  | nil => intro gs h; simpa using h
  | cons c X ih =>
    intro gs h
    simpa using ih (addToGroups gs c) (addToGroups_mem_key gs c h)

/-- The grouping dictionary built by `deduplicate_citations`: groups are
non-empty. -/
theorem groupByKey_nonempty (citations : List CitationRecord) :
    ∀ g ∈ groupByKey citations, g.2 ≠ [] := by
  suffices aux : ∀ (X : List CitationRecord) (gs : List (MergeKey × List CitationRecord)),
      (∀ g ∈ gs, g.2 ≠ []) → ∀ g ∈ X.foldl addToGroups gs, g.2 ≠ [] by
    exact aux citations [] (by simp)
  intro X
  induction X with
  | nil => intro gs h; simpa using h
  | cons c X ih =>
    intro gs h
    simpa using ih (addToGroups gs c) (addToGroups_nonempty gs c h)

/-- The grouping dictionary built by `deduplicate_citations`: keys are
pairwise distinct. -/
theorem groupByKey_nodup (citations : List CitationRecord) :
    ((groupByKey citations).map Prod.fst).Nodup := by
  suffices aux : ∀ (X : List CitationRecord) (gs : List (MergeKey × List CitationRecord)),
      (gs.map Prod.fst).Nodup → ((X.foldl addToGroups gs).map Prod.fst).Nodup by
    exact aux citations [] (by simp)
  intro X
  induction X with
  | nil => intro gs h; simpa using h
  | cons c X ih =>
    intro gs h
    simpa using ih (addToGroups gs c) (addToGroups_nodup gs c h)

/-- Keys of the deduplicated output are exactly the group keys. -/
theorem dedup_keys (gs : List (MergeKey × List CitationRecord))
    (hne : ∀ g ∈ gs, g.2 ≠ []) (hkey : ∀ g ∈ gs, ∀ c' ∈ g.2, mergeKey c' = g.1) :
    (gs.filterMap dedupGroup).map mergeKey = gs.map Prod.fst := by
  induction gs with
  | nil => rfl
  | cons g rest ih =>
    obtain ⟨c, cs, hcc⟩ : ∃ c cs, g.2 = c :: cs := by
      cases hg : g.2 with
      | nil => exact absurd hg (hne g (List.mem_cons_self _ _))
      | cons c cs => exact ⟨c, cs, rfl⟩
    have hdg : dedupGroup g = some (applySources c (collectSources g.2)) := by
      unfold dedupGroup
      rw [hcc]
    rw [List.filterMap_cons, hdg, List.map_cons, mergeKey_applySources]
    rw [hkey g (List.mem_cons_self _ _) c (by rw [hcc]; exact List.mem_cons_self _ _)]
    rw [ih (fun g' hg' => hne g' (List.mem_cons_of_mem _ hg'))
        (fun g' hg' => hkey g' (List.mem_cons_of_mem _ hg'))]
    rfl

/-- The deduplicated output never contains two records sharing the merge
key. -/
theorem dedup_distinctKeys (citations : List CitationRecord) :
    distinctKeys (deduplicate_citations citations) := by
  unfold distinctKeys deduplicate_citations
  rw [dedup_keys _ (groupByKey_nonempty citations) (groupByKey_mem_key citations)]
  exact groupByKey_nodup citations

/-- Grouping a key-unique list produces one singleton group per record, in
order. -/
theorem groupByKey_of_distinct (citations : List CitationRecord)
    (h : distinctKeys citations) :
    groupByKey citations = citations.map fun c => (mergeKey c, [c]) := by
  suffices aux : ∀ (X : List CitationRecord) (gs : List (MergeKey × List CitationRecord)),
      (∀ g ∈ gs, ∀ c ∈ X, g.1 ≠ mergeKey c) → (X.map mergeKey).Nodup →
      X.foldl addToGroups gs = gs ++ X.map fun c => (mergeKey c, [c]) by
    simpa using aux citations [] (by simp) h
  intro X
  induction X with
  | nil => intro gs _ _; simp
  | cons c X ih =>
    intro gs hdisj hnd
    simp only [List.foldl_cons, List.map_cons]
    have hnotmem : mergeKey c ∉ gs.map Prod.fst := by
      intro hmem
      obtain ⟨g, hg, hgk⟩ := List.mem_map.mp hmem
      exact hdisj g hg c (List.mem_cons_self _ _) hgk
    rw [addToGroups_of_not_mem gs c hnotmem]
    rw [ih (gs ++ [(mergeKey c, [c])]) ?hdisj ?hnd]
    · simp
    case hdisj =>
      intro g hg c' hc'
      rcases List.mem_append.mp hg with hg | hg
      · exact hdisj g hg c' (List.mem_cons_of_mem _ hc')
      · simp only [List.mem_singleton] at hg
        subst hg
        simp only [List.map_cons, List.nodup_cons] at hnd
        intro hk
        apply hnd.1
        have hkk : mergeKey c = mergeKey c' := hk
        rw [hkk]
        exact List.mem_map_of_mem mergeKey hc'
    case hnd =>
      simp only [List.map_cons, List.nodup_cons] at hnd
      exact hnd.2

/-- A record is its own representative: consolidating the sources observed in
its singleton group changes nothing. -/
theorem applySources_single (c : CitationRecord) :
    applySources c (collectSources [c]) = c := by
  cases hc : c.citation_source with
  | none =>
    have hempty : collectSources [c] = [] := by simp [collectSources, hc]
    rw [hempty]
    rfl
  | some s =>
    by_cases hs : s = ""
    · have hempty : collectSources [c] = [] := by simp [collectSources, hc, hs]
      rw [hempty]
      rfl
    · have hone : collectSources [c] = [s] := by simp [collectSources, hc, hs]
      rw [hone]
      show applySources c [s] = c
      unfold applySources
      rw [if_neg (by simp)]
      show { c with citation_source := some s } = c
      rw [← hc]

/-- Deduplicating a list of singleton groups returns the records unchanged. -/
theorem filterMap_dedupGroup_singletons (citations : List CitationRecord) :
    ((citations.map fun c => (mergeKey c, [c])).filterMap dedupGroup) = citations := by
  induction citations with
  | nil => rfl
  | cons c rest ih =>
    simp only [List.map_cons, List.filterMap_cons]
    have hdg : dedupGroup (mergeKey c, [c]) = some (applySources c (collectSources [c])) := rfl
    rw [hdg, applySources_single, ih]

/-- Deduplicating an already key-unique list is the identity. -/
theorem dedup_of_distinct (citations : List CitationRecord)
    (h : distinctKeys citations) :
    deduplicate_citations citations = citations := by
  unfold deduplicate_citations
  rw [groupByKey_of_distinct citations h]
  exact filterMap_dedupGroup_singletons citations

/-- C3: for every input list, the output of the deduplicator contains no two
records sharing the `(item_id, item_flavor, citation_doi)` triple. -/
theorem deduplicate_citations_key_unique (citations : List CitationRecord) :
    distinctKeys (deduplicate_citations citations) :=
  dedup_distinctKeys citations

/-- C6: the deduplicator is idempotent — deduplicating its own output is a
no-op by value. -/
theorem deduplicate_citations_idempotent (citations : List CitationRecord) :
    deduplicate_citations (deduplicate_citations citations) =
      deduplicate_citations citations :=
  dedup_of_distinct _ (dedup_distinctKeys citations)

/-! ### Merger lemmas -/

/-- Metadata refresh never touches the merge-key fields. -/
theorem refreshMetadata_key (e nc : CitationRecord) :
    mergeKey (refreshMetadata e nc) = mergeKey e := by
  unfold refreshMetadata
  split <;> rfl

/-- Metadata refresh never touches the curation status. -/
theorem refreshMetadata_status (e nc : CitationRecord) :
    (refreshMetadata e nc).citation_status = e.citation_status := by
  unfold refreshMetadata
  split <;> rfl

/-- Metadata refresh never touches the curation comment. -/
theorem refreshMetadata_comment (e nc : CitationRecord) :
    (refreshMetadata e nc).citation_comment = e.citation_comment := by
  unfold refreshMetadata
  split <;> rfl

/-- A curated record — non-active status, or a truthy comment — is returned
untouched by the refresh body. -/
theorem refreshMetadata_of_curated (e nc : CitationRecord)
    (h : ¬ (e.citation_status = "active" ∧ truthy e.citation_comment = false)) :
    refreshMetadata e nc = e := by
  unfold refreshMetadata
  rw [if_neg h]

/-- The unfolded refresh body on an uncurated record. -/
theorem refreshMetadata_of_uncurated (e nc : CitationRecord)
    (hs : e.citation_status = "active") (hc : truthy e.citation_comment = false) :
    refreshMetadata e nc =
      { e with
          citation_title := pickVal truthy e.citation_title nc.citation_title
          citation_authors := pickVal truthy e.citation_authors nc.citation_authors
          citation_year := pickVal truthyInt e.citation_year nc.citation_year
          citation_journal := pickVal truthy e.citation_journal nc.citation_journal } := by
  unfold refreshMetadata
  rw [if_pos ⟨hs, hc⟩]
  rfl

/-- Refreshing a record with itself changes nothing. -/
theorem refreshMetadata_self (e : CitationRecord) : refreshMetadata e e = e := by
  by_cases h : e.citation_status = "active" ∧ truthy e.citation_comment = false
  · rw [refreshMetadata_of_uncurated e e h.1 h.2]
    simp [pickVal]
  · exact refreshMetadata_of_curated e e h

/-- Point lookup through a single-position modification. -/
theorem modifyAt_get? (L : List CitationRecord) (i : Nat) (f : CitationRecord → CitationRecord) :
    ∀ j, (modifyAt L i f).get? j = if j = i then (L.get? j).map f else L.get? j := by
  induction L generalizing i with
  | nil => intro j; simp [modifyAt]
  | cons c rest ih =>
    intro j
    cases i with
    | zero =>
      cases j with
      | zero => simp [modifyAt]
      | succ j => simp [modifyAt]
    | succ i =>
      cases j with
      | zero => simp [modifyAt]
      | succ j =>
        simp only [modifyAt, List.get?_cons_succ, ih i j]
        by_cases hj : j = i
        · simp [hj]
        · simp [hj]

/-- Single-position modification preserves the length. -/
theorem modifyAt_length (L : List CitationRecord) (i : Nat) (f : CitationRecord → CitationRecord) :
    (modifyAt L i f).length = L.length := by
  induction L generalizing i with
  | nil => rfl
  | cons c rest ih =>
    cases i with
    | zero => rfl
    | succ i => simp [modifyAt, ih i]

/-- A key-preserving single-position modification preserves the key list. -/
theorem modifyAt_map_key (L : List CitationRecord) (i : Nat)
    (f : CitationRecord → CitationRecord) (hf : ∀ x, mergeKey (f x) = mergeKey x) :
    (modifyAt L i f).map mergeKey = L.map mergeKey := by
  induction L generalizing i with
  | nil => rfl
  | cons c rest ih =>
    cases i with
    | zero => simp [modifyAt, hf c]
    | succ i => simp [modifyAt, ih i]

/-- Single-position modification at a valid position is `List.set` with the
modified record. -/
theorem modifyAt_eq_set (L : List CitationRecord) (i : Nat)
    (f : CitationRecord → CitationRecord) (e : CitationRecord) (h : L.get? i = some e) :
    modifyAt L i f = L.set i (f e) := by
  induction L generalizing i with
  | nil => simp at h
  | cons c rest ih =>
    cases i with
    | zero =>
      simp only [List.get?_cons_zero, Option.some.injEq] at h
      subst h
      rfl
    | succ i =>
      simp only [List.get?_cons_succ] at h
      simp [modifyAt, List.set, ih i h]

/-- The key index misses a key exactly when no record carries it. -/
theorem lastKeyIdx_eq_none (L : List CitationRecord) (k : MergeKey) :
    lastKeyIdx L k = none ↔ ∀ c ∈ L, mergeKey c ≠ k := by
  induction L with
  | nil => simp [lastKeyIdx]
  | cons c rest ih =>
    constructor
    · intro h c' hc'
      unfold lastKeyIdx at h
      cases hr : lastKeyIdx rest k with
      | some j => rw [hr] at h; exact Option.noConfusion h
      | none =>
        rw [hr] at h
        rcases List.mem_cons.mp hc' with hc' | hc'
        · subst hc'
          intro hk
          rw [if_pos hk] at h
          exact Option.noConfusion h
        · exact ih.mp hr c' hc'
    · intro h
      unfold lastKeyIdx
      rw [ih.mpr fun c' hc' => h c' (List.mem_cons_of_mem _ hc')]
      rw [if_neg (h c (List.mem_cons_self _ _))]

/-- The key index points at a record carrying the key. -/
theorem lastKeyIdx_get (L : List CitationRecord) (k : MergeKey) (j : Nat)
    (h : lastKeyIdx L k = some j) : ∃ c, L.get? j = some c ∧ mergeKey c = k := by
  induction L generalizing j with
  | nil => exact Option.noConfusion h
  | cons c rest ih =>
    unfold lastKeyIdx at h
    cases hr : lastKeyIdx rest k with
    | some j' =>
      rw [hr] at h
      simp only [Option.some.injEq] at h
      subst h
      obtain ⟨c', hc', hk⟩ := ih j' hr
      exact ⟨c', by simpa using hc', hk⟩
    | none =>
      rw [hr] at h
      by_cases hk : mergeKey c = k
      · rw [if_pos hk] at h
        simp only [Option.some.injEq] at h
        subst h
        exact ⟨c, rfl, hk⟩
      · rw [if_neg hk] at h
        exact Option.noConfusion h

/-- The key index stays within the list. -/
theorem lastKeyIdx_lt_length (L : List CitationRecord) (k : MergeKey) (j : Nat)
    (h : lastKeyIdx L k = some j) : j < L.length := by
  obtain ⟨c, hc, _⟩ := lastKeyIdx_get L k j h
  exact List.get?_eq_some.mp hc |>.1

/-- Appending one record updates the index exactly at its key (an appended
record is the last occurrence of its key). -/
theorem lastKeyIdx_append (L : List CitationRecord) (c : CitationRecord) (k : MergeKey) :
    lastKeyIdx (L ++ [c]) k =
      if mergeKey c = k then some L.length else lastKeyIdx L k := by
  induction L with
  | nil => rfl
  | cons c0 rest ih =>
    show lastKeyIdx (c0 :: (rest ++ [c])) k = _
    unfold lastKeyIdx
    rw [ih]
    by_cases hk : mergeKey c = k
    · simp [hk]
    · simp only [if_neg hk]

/-- A key-preserving single-position modification leaves the key index
unchanged. -/
theorem lastKeyIdx_modifyAt (L : List CitationRecord) (i : Nat)
    (f : CitationRecord → CitationRecord) (hf : ∀ x, mergeKey (f x) = mergeKey x)
    (k : MergeKey) : lastKeyIdx (modifyAt L i f) k = lastKeyIdx L k := by
  induction L generalizing i with
  | nil => rfl
  | cons c rest ih =>
    cases i with
    | zero =>
      show lastKeyIdx (f c :: rest) k = lastKeyIdx (c :: rest) k
      unfold lastKeyIdx
      rw [hf c]
    | succ i =>
      show lastKeyIdx (c :: modifyAt rest i f) k = lastKeyIdx (c :: rest) k
      unfold lastKeyIdx
      rw [ih i]

/-- The threaded index of the `merge_citations` loop always agrees with
`lastKeyIdx` of the current citation list, so the stateful loop equals its
index-free form. -/
theorem merge_citations_eq_mergeAux (citations new_citations : List CitationRecord) :
    merge_citations citations new_citations = mergeAux citations new_citations := by
  suffices aux : ∀ (I : List CitationRecord) (st : MergeState),
      (∀ k, st.index k = lastKeyIdx st.citations k) →
      (I.foldl mergeLoopStep st).citations = I.foldl mergeStep st.citations by
    exact aux new_citations ⟨citations, lastKeyIdx citations⟩ fun k => rfl
  intro I
  induction I with
  | nil => intro st h; rfl
  | cons nc I ih =>
    intro st h
    simp only [List.foldl_cons]
    have hidx := h (mergeKey nc)
    cases hcase : lastKeyIdx st.citations (mergeKey nc) with
    | some i =>
      rw [hcase] at hidx
      have hstep : mergeLoopStep st nc =
          { st with citations :=
              modifyAt st.citations i (fun existing => refreshMetadata existing nc) } := by
        unfold mergeLoopStep
        rw [hidx]
      have hstep' : mergeStep st.citations nc =
          modifyAt st.citations i (fun existing => refreshMetadata existing nc) := by
        unfold mergeStep
        rw [hcase]
      rw [hstep, hstep']
      apply ih
      intro k
      show st.index k = _
      rw [h k, lastKeyIdx_modifyAt _ _ _ fun x => refreshMetadata_key x nc]
    | none =>
      rw [hcase] at hidx
      have hstep : mergeLoopStep st nc =
          { citations := st.citations ++ [nc]
            index := fun k =>
              if k = mergeKey nc then some st.citations.length else st.index k } := by
        unfold mergeLoopStep
        rw [hidx]
      have hstep' : mergeStep st.citations nc = st.citations ++ [nc] := by
        unfold mergeStep
        rw [hcase]
      rw [hstep, hstep']
      apply ih
      intro k
      show (if k = mergeKey nc then some st.citations.length else st.index k) = _
      rw [lastKeyIdx_append]
      by_cases hk : k = mergeKey nc
      · rw [if_pos hk, if_pos hk.symm]
      · rw [if_neg hk, if_neg fun hkk => hk hkk.symm, h k]

/-- On a key-unique list, the index of a record key is exactly the record
position. -/
theorem distinct_lastKeyIdx (E : List CitationRecord) (i : Nat) (e : CitationRecord)
    (hdist : distinctKeys E) (hget : E.get? i = some e) :
    lastKeyIdx E (mergeKey e) = some i := by
  induction E generalizing i with
  | nil => simp at hget
  | cons c rest ih =>
    have hdist' : distinctKeys rest := by
      unfold distinctKeys at hdist ⊢
      simp only [List.map_cons, List.nodup_cons] at hdist
      exact hdist.2
    cases i with
    | zero =>
      simp only [List.get?_cons_zero, Option.some.injEq] at hget
      rw [← hget]
      have hnone : lastKeyIdx rest (mergeKey c) = none := by
        rw [lastKeyIdx_eq_none]
        intro c' hc' hk
        unfold distinctKeys at hdist
        simp only [List.map_cons, List.nodup_cons] at hdist
        exact hdist.1 (hk ▸ List.mem_map_of_mem mergeKey hc')
      unfold lastKeyIdx
      rw [hnone, if_pos rfl]
    | succ i =>
      simp only [List.get?_cons_succ] at hget
      unfold lastKeyIdx
      rw [ih i hdist' hget]

/-- C10: merging any incoming batch into a key-unique citation list keeps the
stored list key-unique — a duplicate-key incoming record takes the refresh
path (its key was registered in the index when the first copy was appended)
and is never appended a second time. -/
theorem merge_citations_preserves_key_uniqueness
    (citations new_citations : List CitationRecord) (h : distinctKeys citations) :
    distinctKeys (merge_citations citations new_citations) := by
  rw [merge_citations_eq_mergeAux]
  induction new_citations generalizing citations with
  | nil => exact h
  | cons nc I ih =>
    show distinctKeys (mergeAux (mergeStep citations nc) I)
    apply ih
    unfold mergeStep
    cases hcase : lastKeyIdx citations (mergeKey nc) with
    | some i =>
      unfold distinctKeys
      rw [modifyAt_map_key _ _ _ fun x => refreshMetadata_key x nc]
      exact h
    | none =>
      unfold distinctKeys
      rw [List.map_append, List.nodup_append]
      refine ⟨h, List.nodup_singleton _, ?_⟩
      intro k hk hk'
      simp only [List.map_cons, List.map_nil, List.mem_singleton] at hk'
      subst hk'
      obtain ⟨c', hc', hck⟩ := List.mem_map.mp hk
      exact (lastKeyIdx_eq_none citations (mergeKey nc)).mp hcase c' hc' hck

/-- C10 witness: a key-unique store merged with a batch that repeats one key
three times stays key-unique. -/
theorem merge_citations_preserves_key_uniqueness_witness :
    distinctKeys [{ item_id := "a", citation_doi := some "10.1/x" : CitationRecord }] ∧
    distinctKeys (merge_citations
      [{ item_id := "a", citation_doi := some "10.1/x" : CitationRecord }]
      [{ item_id := "b", citation_doi := some "10.1/y" : CitationRecord },
       { item_id := "b", citation_doi := some "10.1/y", citation_title := some "t" : CitationRecord },
       { item_id := "b", citation_doi := some "10.1/y" : CitationRecord }]) :=
  ⟨by decide, merge_citations_preserves_key_uniqueness _ _ (by decide)⟩

/-- C2: merging one incoming record whose key matches an uncurated existing
record (`citation_status = "active"`, falsy comment) rewrites exactly the
four metadata fields, each only when the incoming value is truthy, and leaves
every other field — curation, classification and the identity key included —
unchanged. -/
theorem merge_citations_refreshes_uncurated
    (E : List CitationRecord) (nc e : CitationRecord) (i : Nat)
    (hdist : distinctKeys E) (hget : E.get? i = some e)
    (hkey : mergeKey e = mergeKey nc)
    (hstatus : e.citation_status = "active") (hcomment : truthy e.citation_comment = false) :
    merge_citations E [nc] = E.set i
      { e with
          citation_title :=
            if truthy nc.citation_title then nc.citation_title else e.citation_title
          citation_authors :=
            if truthy nc.citation_authors then nc.citation_authors else e.citation_authors
          citation_year :=
            if truthyInt nc.citation_year then nc.citation_year else e.citation_year
          citation_journal :=
            if truthy nc.citation_journal then nc.citation_journal else e.citation_journal } := by
  rw [merge_citations_eq_mergeAux]
  show mergeStep E nc = _
  have hidx : lastKeyIdx E (mergeKey nc) = some i := by
    rw [← hkey]
    exact distinct_lastKeyIdx E i e hdist hget
  unfold mergeStep
  rw [hidx]
  show modifyAt E i (fun existing => refreshMetadata existing nc) = _
  rw [modifyAt_eq_set E i (fun existing => refreshMetadata existing nc) e hget]
  have hr := refreshMetadata_of_uncurated e nc hstatus hcomment
  rw [hr]
  rfl

/-- C2 witness: a known title is kept when the incoming one is absent, while
the absent journal is filled in; nothing else moves. -/
theorem merge_citations_refreshes_uncurated_witness :
    distinctKeys [{ item_id := "a", citation_doi := some "d", citation_title := some "old" : CitationRecord }] ∧
    ([{ item_id := "a", citation_doi := some "d", citation_title := some "old" : CitationRecord }].get? 0 =
      some { item_id := "a", citation_doi := some "d", citation_title := some "old" }) ∧
    merge_citations
        [{ item_id := "a", citation_doi := some "d", citation_title := some "old" : CitationRecord }]
        [{ item_id := "a", citation_doi := some "d", citation_journal := some "J" : CitationRecord }] =
      [{ item_id := "a", citation_doi := some "d", citation_title := some "old",
         citation_journal := some "J" : CitationRecord }] := by
  refine ⟨by decide, rfl, ?_⟩
  have h := merge_citations_refreshes_uncurated
    [{ item_id := "a", citation_doi := some "d", citation_title := some "old" : CitationRecord }]
    { item_id := "a", citation_doi := some "d", citation_journal := some "J" }
    { item_id := "a", citation_doi := some "d", citation_title := some "old" }
    0 (by decide) rfl rfl rfl rfl
  rw [h]
  decide

/-- Every curated record of the existing list survives any merge at its
position, bitwise unchanged. -/
theorem mergeAux_keeps_curated (I : List CitationRecord) :
    ∀ (E : List CitationRecord) (p : Nat) (e : CitationRecord), E.get? p = some e →
      ¬ (e.citation_status = "active" ∧ truthy e.citation_comment = false) →
      (mergeAux E I).get? p = some e := by
  induction I with
  | nil => intro E p e hget _; exact hget
  | cons nc I ih =>
    intro E p e hget hcur
    show (mergeAux (mergeStep E nc) I).get? p = some e
    apply ih _ _ _ _ hcur
    unfold mergeStep
    cases hcase : lastKeyIdx E (mergeKey nc) with
    | some i =>
      rw [modifyAt_get?]
      by_cases hp : p = i
      · rw [if_pos hp, hget]
        show some (refreshMetadata e nc) = some e
        rw [refreshMetadata_of_curated e nc hcur]
      · rw [if_neg hp]
        exact hget
    | none =>
      have hlt : p < E.length := (List.get?_eq_some.mp hget).1
      rw [List.get?_append hlt]
      exact hget

/-- C1: a curated existing record — non-empty comment, or status other than
`active` — is left with every field unchanged by any merge; the incoming
metadata for its key is discarded. -/
theorem merge_citations_keeps_curated
    (citations new_citations : List CitationRecord) (p : Nat) (e : CitationRecord)
    (hget : citations.get? p = some e)
    (hcur : truthy e.citation_comment = true ∨ e.citation_status ≠ "active") :
    (merge_citations citations new_citations).get? p = some e := by
  rw [merge_citations_eq_mergeAux]
  apply mergeAux_keeps_curated new_citations citations p e hget
  intro huncur
  rcases hcur with hc | hs
  · rw [huncur.2] at hc
    exact Bool.noConfusion hc
  · exact hs huncur.1

/-- C1 witness: an active record with a curator comment keeps its title and
comment when an incoming record with the same key and another title is
merged. -/
theorem merge_citations_keeps_curated_witness :
    ([{ item_id := "a", citation_doi := some "d", citation_title := some "old",
        citation_comment := some "reviewed ok" : CitationRecord }].get? 0 =
      some { item_id := "a", citation_doi := some "d", citation_title := some "old",
             citation_comment := some "reviewed ok" }) ∧
    (merge_citations
        [{ item_id := "a", citation_doi := some "d", citation_title := some "old",
           citation_comment := some "reviewed ok" : CitationRecord }]
        [{ item_id := "a", citation_doi := some "d", citation_title := some "new" : CitationRecord }]).get? 0 =
      some { item_id := "a", citation_doi := some "d", citation_title := some "old",
             citation_comment := some "reviewed ok" } :=
  ⟨rfl, merge_citations_keeps_curated _ _ 0 _ rfl (Or.inl (by decide))⟩

/-! ### Idempotence of the merger -/

/-- Unfolding one refresh in a chain. -/
theorem refreshChain_cons (e w : CitationRecord) (L : List CitationRecord) :
    refreshChain e (w :: L) = refreshChain (refreshMetadata e w) L := rfl

/-- Folded guarded assignment over an extended sequence. -/
theorem pickFold_append {α : Type} (t : α → Bool) (v w : α) (ws : List α) :
    pickFold t v (ws ++ [w]) = pickVal t (pickFold t v ws) w := by
  unfold pickFold
  rw [List.foldl_append]
  rfl

/-- Replaying a guarded assignment already absorbed in the fold does not move
the value: the last truthy write wins again. -/
theorem pickFold_replay_step {α : Type} (t : α → Bool) (v w : α) (ws : List α)
    (h : pickFold t v ws = v) :
    pickVal t (pickFold t (pickVal t v w) ws) w = pickVal t v w := by
  by_cases ht : t w = true
  · simp [pickVal, ht]
  · simp only [Bool.not_eq_true] at ht
    simp [pickVal, ht, h]

/-- A chain of refreshes leaves a curated record untouched. -/
theorem refreshChain_of_curated (L : List CitationRecord) :
    ∀ e : CitationRecord, ¬ (e.citation_status = "active" ∧ truthy e.citation_comment = false) →
      refreshChain e L = e := by
  induction L with
  | nil => intro e _; rfl
  | cons w L ih =>
    intro e h
    rw [refreshChain_cons, refreshMetadata_of_curated e w h]
    exact ih e h

/-- A chain of refreshes on an uncurated record acts per field as the folded
guarded assignment of the incoming values; every other field is untouched. -/
theorem refreshChain_char (L : List CitationRecord) :
    ∀ e : CitationRecord, e.citation_status = "active" → truthy e.citation_comment = false →
      refreshChain e L =
        { e with
            citation_title :=
              pickFold truthy e.citation_title (L.map CitationRecord.citation_title)
            citation_authors :=
              pickFold truthy e.citation_authors (L.map CitationRecord.citation_authors)
            citation_year :=
              pickFold truthyInt e.citation_year (L.map CitationRecord.citation_year)
            citation_journal :=
              pickFold truthy e.citation_journal (L.map CitationRecord.citation_journal) } := by
  induction L with
  | nil => intro e _ _; rfl
  | cons w L ih =>
    intro e hs hc
    rw [refreshChain_cons, refreshMetadata_of_uncurated e w hs hc]
    rw [ih { e with
        citation_title := pickVal truthy e.citation_title w.citation_title
        citation_authors := pickVal truthy e.citation_authors w.citation_authors
        citation_year := pickVal truthyInt e.citation_year w.citation_year
        citation_journal := pickVal truthy e.citation_journal w.citation_journal } hs hc]
    rfl

/-- Replaying an absorbed incoming record on top of an absorbed chain is a
no-op: once `refreshChain e L = e`, refreshing `e` by `nc` and then replaying
`L ++ [nc]` gives `refreshMetadata e nc` again. -/
theorem refreshChain_replay_step (e nc : CitationRecord) (L : List CitationRecord)
    (h : refreshChain e L = e) :
    refreshChain (refreshMetadata e nc) (L ++ [nc]) = refreshMetadata e nc := by
  by_cases hcur : e.citation_status = "active" ∧ truthy e.citation_comment = false
  · obtain ⟨hs, hc⟩ := hcur
    rw [refreshChain_char L e hs hc] at h
    have htitle : pickFold truthy e.citation_title (L.map CitationRecord.citation_title) =
        e.citation_title := congrArg CitationRecord.citation_title h
    have hauthors : pickFold truthy e.citation_authors (L.map CitationRecord.citation_authors) =
        e.citation_authors := congrArg CitationRecord.citation_authors h
    have hyear : pickFold truthyInt e.citation_year (L.map CitationRecord.citation_year) =
        e.citation_year := congrArg CitationRecord.citation_year h
    have hjournal : pickFold truthy e.citation_journal (L.map CitationRecord.citation_journal) =
        e.citation_journal := congrArg CitationRecord.citation_journal h
    rw [refreshMetadata_of_uncurated e nc hs hc]
    rw [refreshChain_char (L ++ [nc])
      { e with
          citation_title := pickVal truthy e.citation_title nc.citation_title
          citation_authors := pickVal truthy e.citation_authors nc.citation_authors
          citation_year := pickVal truthyInt e.citation_year nc.citation_year
          citation_journal := pickVal truthy e.citation_journal nc.citation_journal } hs hc]
    show ({ e with
        citation_title := pickFold truthy (pickVal truthy e.citation_title nc.citation_title)
          ((L ++ [nc]).map CitationRecord.citation_title)
        citation_authors := pickFold truthy (pickVal truthy e.citation_authors nc.citation_authors)
          ((L ++ [nc]).map CitationRecord.citation_authors)
        citation_year := pickFold truthyInt (pickVal truthyInt e.citation_year nc.citation_year)
          ((L ++ [nc]).map CitationRecord.citation_year)
        citation_journal := pickFold truthy (pickVal truthy e.citation_journal nc.citation_journal)
          ((L ++ [nc]).map CitationRecord.citation_journal) } : CitationRecord) = _
    simp only [List.map_append, List.map_cons, List.map_nil, pickFold_append]
    rw [pickFold_replay_step truthy _ _ _ htitle,
      pickFold_replay_step truthy _ _ _ hauthors,
      pickFold_replay_step truthyInt _ _ _ hyear,
      pickFold_replay_step truthy _ _ _ hjournal]
  · rw [refreshMetadata_of_curated e nc hcur]
    unfold refreshChain
    rw [List.foldl_append]
    show refreshMetadata (refreshChain e L) nc = e
    rw [h, refreshMetadata_of_curated e nc hcur]

/-- Positional characterization of a merge run: the record at an existing
position ends up refreshed, in order, by exactly the incoming records whose
key the index resolves to that position. -/
theorem mergeAux_get?_low (I : List CitationRecord) :
    ∀ (E : List CitationRecord) (p : Nat) (e : CitationRecord), E.get? p = some e →
      (mergeAux E I).get? p =
        some (refreshChain e
          (I.filter fun nc => decide (lastKeyIdx E (mergeKey nc) = some p))) := by
  induction I with
  | nil =>
    intro E p e hget
    simpa using hget
  | cons nc I ih =>
    intro E p e hget
    show (mergeAux (mergeStep E nc) I).get? p = _
    unfold mergeStep
    cases hcase : lastKeyIdx E (mergeKey nc) with
    | some i =>
      have hidxeq : ∀ k, lastKeyIdx (modifyAt E i fun ex => refreshMetadata ex nc) k =
          lastKeyIdx E k :=
        lastKeyIdx_modifyAt E i _ fun x => refreshMetadata_key x nc
      by_cases hp : p = i
      · subst hp
        have hget' : (modifyAt E p fun ex => refreshMetadata ex nc).get? p =
            some (refreshMetadata e nc) := by
          rw [modifyAt_get?, if_pos rfl, hget]
          rfl
        rw [ih _ _ _ hget']
        have hfil : (I.filter fun nc' =>
            decide (lastKeyIdx (modifyAt E p fun ex => refreshMetadata ex nc)
              (mergeKey nc') = some p)) =
            I.filter fun nc' => decide (lastKeyIdx E (mergeKey nc') = some p) :=
          List.filter_congr fun nc' _ => by rw [hidxeq (mergeKey nc')]
        rw [hfil]
        have hhead : ((nc :: I).filter fun nc' =>
            decide (lastKeyIdx E (mergeKey nc') = some p)) =
            nc :: I.filter fun nc' => decide (lastKeyIdx E (mergeKey nc') = some p) :=
          List.filter_cons_of_pos (by simp [hcase])
        rw [hhead, refreshChain_cons]
      · have hget' : (modifyAt E i fun ex => refreshMetadata ex nc).get? p = some e := by
          rw [modifyAt_get?, if_neg hp]
          exact hget
        rw [ih _ _ _ hget']
        have hfil : (I.filter fun nc' =>
            decide (lastKeyIdx (modifyAt E i fun ex => refreshMetadata ex nc)
              (mergeKey nc') = some p)) =
            I.filter fun nc' => decide (lastKeyIdx E (mergeKey nc') = some p) :=
          List.filter_congr fun nc' _ => by rw [hidxeq (mergeKey nc')]
        rw [hfil]
        have hhead : ((nc :: I).filter fun nc' =>
            decide (lastKeyIdx E (mergeKey nc') = some p)) =
            I.filter fun nc' => decide (lastKeyIdx E (mergeKey nc') = some p) :=
          List.filter_cons_of_neg (by simp [hcase]; exact fun h => hp h.symm)
        rw [hhead]
    | none =>
      have hlt : p < E.length := (List.get?_eq_some.mp hget).1
      have hget' : (E ++ [nc]).get? p = some e := by
        rw [List.get?_append hlt]
        exact hget
      rw [ih _ _ _ hget']
      have hfil : (I.filter fun nc' =>
          decide (lastKeyIdx (E ++ [nc]) (mergeKey nc') = some p)) =
          I.filter fun nc' => decide (lastKeyIdx E (mergeKey nc') = some p) := by
        apply List.filter_congr
        intro nc' _
        rw [lastKeyIdx_append]
        by_cases hk : mergeKey nc = mergeKey nc'
        · rw [if_pos hk]
          have h1 : ¬ (some E.length = some p) := by
            simp only [Option.some.injEq]
            omega
          have h2 : lastKeyIdx E (mergeKey nc') = none := by
            rw [← hk]
            exact hcase
          simp [h1, h2]
        · rw [if_neg hk]
      have hhead : ((nc :: I).filter fun nc' =>
          decide (lastKeyIdx E (mergeKey nc') = some p)) =
          I.filter fun nc' => decide (lastKeyIdx E (mergeKey nc') = some p) :=
        List.filter_cons_of_neg (by simp [hcase])
      rw [hfil, hhead]

/-- When every incoming key is already present, a merge run appends nothing. -/
theorem mergeAux_length_of_present (I : List CitationRecord) :
    ∀ E : List CitationRecord, (∀ nc ∈ I, lastKeyIdx E (mergeKey nc) ≠ none) →
      (mergeAux E I).length = E.length := by
  induction I with
  | nil => intro E _; rfl
  | cons nc I ih =>
    intro E h
    show (mergeAux (mergeStep E nc) I).length = E.length
    cases hcase : lastKeyIdx E (mergeKey nc) with
    | none => exact absurd hcase (h nc (List.mem_cons_self _ _))
    | some i =>
      have hstep : mergeStep E nc = modifyAt E i fun ex => refreshMetadata ex nc := by
        unfold mergeStep
        rw [hcase]
      rw [hstep]
      rw [ih _ ?pres]
      · exact modifyAt_length E i _
      case pres =>
        intro nc' hnc'
        rw [lastKeyIdx_modifyAt E i _ fun x => refreshMetadata_key x nc]
        exact h nc' (List.mem_cons_of_mem _ hnc')

/-- After a merge run, every incoming key is present, and every stored record
has already absorbed, at its position, all the incoming records the index
sends there: replaying them is a per-record no-op. -/
theorem merge_invariant (E I : List CitationRecord) :
    (∀ nc ∈ I, lastKeyIdx (mergeAux E I) (mergeKey nc) ≠ none) ∧
    (∀ p e, (mergeAux E I).get? p = some e →
      refreshChain e
        (I.filter fun nc => decide (lastKeyIdx (mergeAux E I) (mergeKey nc) = some p)) = e) := by
  induction I using List.reverseRecOn with
  | nil => exact ⟨by simp, fun p e _ => rfl⟩
  | append_singleton I nc ih =>
    obtain ⟨iha, ihb⟩ := ih
    have hM : mergeAux E (I ++ [nc]) = mergeStep (mergeAux E I) nc := by
      unfold mergeAux
      rw [List.foldl_append]
      rfl
    rw [hM]
    cases hcase : lastKeyIdx (mergeAux E I) (mergeKey nc) with
    | some i =>
      have hstep : mergeStep (mergeAux E I) nc =
          modifyAt (mergeAux E I) i fun ex => refreshMetadata ex nc := by
        unfold mergeStep
        rw [hcase]
      rw [hstep]
      have hidxeq : ∀ k, lastKeyIdx (modifyAt (mergeAux E I) i fun ex => refreshMetadata ex nc) k =
          lastKeyIdx (mergeAux E I) k :=
        lastKeyIdx_modifyAt _ i _ fun x => refreshMetadata_key x nc
      constructor
      · intro nc' hnc'
        rw [hidxeq]
        rcases List.mem_append.mp hnc' with hnc' | hnc'
        · exact iha nc' hnc'
        · simp only [List.mem_singleton] at hnc'
          subst hnc'
          rw [hcase]
          exact Option.noConfusion
      · intro p e' hget'
        have hfil : ((I ++ [nc]).filter fun nc' =>
            decide (lastKeyIdx (modifyAt (mergeAux E I) i fun ex => refreshMetadata ex nc)
              (mergeKey nc') = some p)) =
            (I ++ [nc]).filter fun nc' =>
              decide (lastKeyIdx (mergeAux E I) (mergeKey nc') = some p) :=
          List.filter_congr fun nc' _ => by rw [hidxeq (mergeKey nc')]
        rw [hfil, List.filter_append]
        by_cases hp : p = i
        · subst hp
          rw [modifyAt_get?, if_pos rfl] at hget'
          cases hMp : (mergeAux E I).get? p with
          | none => rw [hMp] at hget'; exact Option.noConfusion hget'
          | some e =>
            rw [hMp] at hget'
            simp only [Option.map_some', Option.some.injEq] at hget'
            subst hget'
            have hone : ([nc].filter fun nc' =>
                decide (lastKeyIdx (mergeAux E I) (mergeKey nc') = some p)) = [nc] := by
              simp [hcase]
            rw [hone]
            exact refreshChain_replay_step e nc _ (ihb p e hMp)
        · rw [modifyAt_get?, if_neg hp] at hget'
          have hzero : ([nc].filter fun nc' =>
              decide (lastKeyIdx (mergeAux E I) (mergeKey nc') = some p)) = [] := by
            simp [hcase]
            exact fun h => hp h.symm
          rw [hzero, List.append_nil]
          exact ihb p e' hget'
    | none =>
      have hstep : mergeStep (mergeAux E I) nc = mergeAux E I ++ [nc] := by
        unfold mergeStep
        rw [hcase]
      rw [hstep]
      have hidxeq : ∀ k, lastKeyIdx (mergeAux E I ++ [nc]) k =
          if mergeKey nc = k then some (mergeAux E I).length else lastKeyIdx (mergeAux E I) k :=
        lastKeyIdx_append _ nc
      constructor
      · intro nc' hnc'
        rw [hidxeq]
        by_cases hk : mergeKey nc = mergeKey nc'
        · rw [if_pos hk]
          exact Option.noConfusion
        · rw [if_neg hk]
          rcases List.mem_append.mp hnc' with hnc' | hnc'
          · exact iha nc' hnc'
          · simp only [List.mem_singleton] at hnc'
            subst hnc'
            exact absurd rfl hk
      · intro p e' hget'
        rcases Nat.lt_trichotomy p (mergeAux E I).length with hp | hp | hp
        · rw [List.get?_append hp] at hget'
          have hfilI : (I.filter fun nc' =>
              decide (lastKeyIdx (mergeAux E I ++ [nc]) (mergeKey nc') = some p)) =
              I.filter fun nc' =>
                decide (lastKeyIdx (mergeAux E I) (mergeKey nc') = some p) := by
            apply List.filter_congr
            intro nc' hnc'
            rw [hidxeq]
            by_cases hk : mergeKey nc = mergeKey nc'
            · exact absurd (hk ▸ hcase) (iha nc' hnc')
            · rw [if_neg hk]
          have hzero : ([nc].filter fun nc' =>
              decide (lastKeyIdx (mergeAux E I ++ [nc]) (mergeKey nc') = some p)) = [] := by
            apply List.filter_eq_nil_iff.mpr
            intro nc' hnc' hq
            simp only [List.mem_singleton] at hnc'
            subst hnc'
            simp only [decide_eq_true_eq] at hq
            rw [hidxeq, if_pos rfl] at hq
            simp only [Option.some.injEq] at hq
            omega
          rw [List.filter_append, hfilI, hzero, List.append_nil]
          exact ihb p e' hget'
        · subst hp
          rw [List.get?_concat_length] at hget'
          simp only [Option.some.injEq] at hget'
          subst hget'
          have hfilI : (I.filter fun nc' =>
              decide (lastKeyIdx (mergeAux E I ++ [nc]) (mergeKey nc') =
                some (mergeAux E I).length)) = [] := by
            apply List.filter_eq_nil_iff.mpr
            intro nc' hnc' hq
            simp only [decide_eq_true_eq] at hq
            rw [hidxeq] at hq
            by_cases hk : mergeKey nc = mergeKey nc'
            · exact absurd (hk ▸ hcase) (iha nc' hnc')
            · rw [if_neg hk] at hq
              have := lastKeyIdx_lt_length _ _ _ hq
              omega
          rw [List.filter_append, hfilI, List.nil_append]
          have hone : ([nc].filter fun nc' =>
              decide (lastKeyIdx (mergeAux E I ++ [nc]) (mergeKey nc') =
                some (mergeAux E I).length)) = [nc] := by
            rw [List.filter_cons_of_pos (by simp [hidxeq]), List.filter_nil]
          rw [hone]
          show refreshMetadata nc nc = nc
          exact refreshMetadata_self nc
        · have hnone : (mergeAux E I ++ [nc]).get? p = none := by
            apply List.get?_eq_none.mpr
            simp only [List.length_append, List.length_singleton]
            omega
          rw [hnone] at hget'
          exact Option.noConfusion hget'

/-- A merge run whose incoming keys are all present and already absorbed is
the identity on the stored list. -/
theorem mergeAux_absorbs (E I : List CitationRecord)
    (ha : ∀ nc ∈ I, lastKeyIdx E (mergeKey nc) ≠ none)
    (hb : ∀ p e, E.get? p = some e →
      refreshChain e (I.filter fun nc => decide (lastKeyIdx E (mergeKey nc) = some p)) = e) :
    mergeAux E I = E := by
  apply List.ext
  intro p
  by_cases hp : p < E.length
  · obtain ⟨e, he⟩ : ∃ e, E.get? p = some e := by
      cases hE : E.get? p with
      | none =>
        rw [List.get?_eq_none] at hE
        omega
      | some e => exact ⟨e, rfl⟩
    rw [he, mergeAux_get?_low I E p e he, hb p e he]
  · have h1 : E.get? p = none := List.get?_eq_none.mpr (by omega)
    have h2 : (mergeAux E I).get? p = none :=
      List.get?_eq_none.mpr (by rw [mergeAux_length_of_present I E ha]; omega)
    rw [h1, h2]

/-- C7: the merger is idempotent — re-merging the same incoming batch against
the already-merged result changes no record and appends no record. -/
theorem merge_citations_idempotent (citations new_citations : List CitationRecord) :
    merge_citations (merge_citations citations new_citations) new_citations =
      merge_citations citations new_citations := by
  simp only [merge_citations_eq_mergeAux]
  obtain ⟨ha, hb⟩ := merge_invariant citations new_citations
  exact mergeAux_absorbs _ _ ha hb

end CitationsCollector
